import Mathlib

/-!
# Verification of `refield` (CouchDB field renamer)

Shallow embedding of the core of the `refield` repository:

* `src/rename.rs` / `src/main.rs` — `rename_nested_field`, the recursive
  structural rename over a JSON tree;
* `src/args.rs` / `src/main.rs` — the dotted-path validation inside
  `parse_args`;
* `src/fetch.rs` — `FetchDocument::execute` (the pagination loop) and
  `FetchDocument::get_metadata`;
* `src/main.rs` — `update_document` and the per-document processing loop
  of `main`.

JSON documents are `serde_json::Value` trees: objects are `BTreeMap`s
(serde_json's default map type), modelled here as key-sorted association
lists.  HTTP transport and JSON parsing of response bodies are external
collaborators; they enter the model as explicit inputs (a status code
together with an already-parsed body, or a transport error).
-/

/-- `serde_json::Value`: a JSON tree.  Objects are association lists;
the `BTreeMap` representation invariant (strictly sorted, duplicate-free
keys) is captured separately by `Json.wfJ`. -/
inductive Json where
  | null
  | bool (b : Bool)
  | num (n : Int)
  | str (s : String)
  | arr (elems : List Json)
  | obj (fields : List (String × Json))

namespace Json

/-- `BTreeMap::get` on the association-list model: value of the first
binding of `k` (a well-formed map has at most one). -/
def getVal : List (String × Json) → String → Option Json
  | [], _ => none
  | (k', v') :: t, k => if k' = k then some v' else getVal t k

/-- `obj.get_mut(k)` followed by writing through the reference: replace
the value of the (first) binding of `k`, leaving everything else alone. -/
def setVal : List (String × Json) → String → Json → List (String × Json)
  | [], _, _ => []
  | (k', v') :: t, k, v => if k' = k then (k', v) :: t else (k', v') :: setVal t k v

/-- `BTreeMap::remove`: drop the (first) binding of `k`. -/
def removeKey : List (String × Json) → String → List (String × Json)
  | [], _ => []
  | (k', v') :: t, k => if k' = k then t else (k', v') :: removeKey t k

/-- `BTreeMap::insert`: put `(k, v)` at its sorted position, replacing an
existing binding of `k`. -/
def insertSorted (k : String) (v : Json) : List (String × Json) → List (String × Json)
  | [] => [(k, v)]
  | (k', v') :: t =>
    if k < k' then (k, v) :: (k', v') :: t
    else if k = k' then (k, v) :: t
    else (k', v') :: insertSorted k v t

end Json

/-- Rust `str::split('.')` on the character list: every occurrence of `'.'`
separates segments; the empty string yields one empty segment. -/
def splitDotsCh : List Char → List (List Char)
  | [] => [[]]
  | c :: cs =>
    if c = '.' then [] :: splitDotsCh cs
    else
      match splitDotsCh cs with
      | [] => [[c]]
      | s :: rest => (c :: s) :: rest

/-- Rust `str::split('.').collect::<Vec<_>>()` on a string. -/
def splitDots (s : String) : List String :=
  (splitDotsCh s.data).map (fun l => ⟨l⟩)

/-- `new_field.split('.').last().unwrap()`: the final segment of a dotted
string (`split` always yields at least one segment, so the default is
unreachable). -/
def lastSeg (s : String) : String :=
  (splitDots s).getLastD ""

/-- A value looked up in an association list is structurally smaller than
the list (termination measure for the recursive rename). -/
theorem Json.sizeOf_getVal {fs : List (String × Json)} {k : String} {v : Json}
    (h : Json.getVal fs k = some v) : sizeOf v < sizeOf fs := by
  induction fs with
  | nil => simp [Json.getVal] at h
  | cons hd t ih =>
    obtain ⟨k', v'⟩ := hd
    simp only [Json.getVal] at h
    by_cases hk : k' = k
    · simp [hk] at h
      subst h
      simp
      omega
    · simp [hk] at h
      have := ih h
      simp
      omega

namespace Json

mutual

/-- `rename_nested_field` from `src/rename.rs` (also duplicated in
`src/main.rs`): recursively rename the field at `old_field_path` to the
final segment of `new_field`, descending through objects one segment at a
time and applying the same path to every element of an array.  Returns the
mutated document together with the `bool` the Rust function returns. -/
def rename_nested_field : Json → List String → String → Json × Bool
  | j, [], _ => (j, false)
  | .obj fields, currentKey :: remainingPath, newField =>
    match h : getVal fields currentKey with
    | none => (.obj fields, false)
    | some value =>
      if remainingPath = [] then
        (.obj (insertSorted (lastSeg newField) value (removeKey fields currentKey)), true)
      else
        let r := rename_nested_field value remainingPath newField
        (.obj (setVal fields currentKey r.1), r.2)
  | .arr elems, p@(_ :: _), newField =>
    let r := renameElems elems p newField
    (.arr r.1, r.2)
  | .null, _ :: _, _ => (.null, false)
  | .bool b, _ :: _, _ => (.bool b, false)
  | .num n, _ :: _, _ => (.num n, false)
  | .str s, _ :: _, _ => (.str s, false)
termination_by j _ _ => sizeOf j
decreasing_by
  all_goals first
    | (have hlt := Json.sizeOf_getVal h; simp; omega)
    | (simp; omega)
    | simp

/-- The `for item in arr { renamed |= rename_nested_field(item, ...) }`
loop: every element is visited with the unmodified path and the flags are
OR-ed. -/
def renameElems : List Json → List String → String → List Json × Bool
  | [], _, _ => ([], false)
  | e :: es, p, newField =>
    let r1 := rename_nested_field e p newField
    let r2 := renameElems es p newField
    (r1.1 :: r2.1, r1.2 || r2.2)
termination_by l _ _ => sizeOf l
decreasing_by
  all_goals first
    | (simp; omega)
    | simp

end

/-- The `BTreeMap` key invariant on an association list: every key is
strictly smaller than all keys after it (hence keys are duplicate-free
and sorted). -/
def keysSorted : List (String × Json) → Bool
  | [] => true
  | (k, _) :: t => t.all (fun b => decide (k < b.1)) && keysSorted t

mutual

/-- Representation invariant of a `serde_json::Value` whose objects are
`BTreeMap`s: every object node has sorted, duplicate-free keys. -/
def wfJ : Json → Bool
  | .null => true
  | .bool _ => true
  | .num _ => true
  | .str _ => true
  | .arr elems => wfL elems
  | .obj fields => keysSorted fields && wfF fields
termination_by j => sizeOf j
decreasing_by
  all_goals simp

/-- `wfJ` on every element of an array. -/
def wfL : List Json → Bool
  | [] => true
  | e :: es => wfJ e && wfL es
termination_by l => sizeOf l
decreasing_by
  all_goals simp
  omega

/-- `wfJ` on every value of an object. -/
def wfF : List (String × Json) → Bool
  | [] => true
  | (_, v) :: t => wfJ v && wfF t
termination_by l => sizeOf l
decreasing_by
  all_goals simp
  all_goals omega

end

end Json

/-- The two path-shape failures of `parse_args` (`src/args.rs`,
`src/main.rs`): depth mismatch, or differing parent path. -/
inductive PathShapeError where
  | depthMismatch (oldLen newLen : Nat)
  | parentMismatch
deriving DecidableEq

/-- The path-validation portion of `parse_args` (`src/args.rs` lines
84–103): split both dotted strings on `'.'`; reject when the segment
counts differ, or when the slices of all but the last segment differ. -/
def validate_field_paths (old_field new_field : String) : Except PathShapeError Unit :=
  let old_path := splitDots old_field
  let new_path := splitDots new_field
  if old_path.length ≠ new_path.length then
    .error (.depthMismatch old_path.length new_path.length)
  else if old_path.dropLast ≠ new_path.dropLast then
    .error .parentMismatch
  else
    .ok ()

/-- Whether an `Except` result is a success. -/
def exceptOk {ε α : Type} : Except ε α → Bool
  | .ok _ => true
  | .error _ => false

/-- One iteration state of `FetchDocument::execute` (`src/fetch.rs` lines
41–66), abstracted over the store: `store i` is the number of documents
the store returns for the `i`-th `_find` request (the batch size seen by
`fetch_and_apply`).  `execLoop store limit fuel i` runs the `loop` from
request `i`: fetch a batch, process it, and stop when the batch is
strictly smaller than `limit`.  Returns the list of batch sizes of all
requests issued, or `none` when the loop does not terminate within
`fuel` iterations. -/
def execLoop (store : Nat → Nat) (limit : Nat) : Nat → Nat → Option (List Nat)
  | 0, _ => none
  | fuel + 1, i =>
    let num_of_record := store i
    if num_of_record < limit then
      some [num_of_record]
    else
      match execLoop store limit fuel (i + 1) with
      | none => none
      | some rest => some (num_of_record :: rest)

/-- `FetchDocument::execute`'s fetch loop started at the first request. -/
def executeFetch (store : Nat → Nat) (limit : Nat) (fuel : Nat) : Option (List Nat) :=
  execLoop store limit fuel 0

/-- A mock store serving exactly `total` documents: request `i` returns
the next `limit` documents, or whatever remains. -/
def mockStore (total limit : Nat) (i : Nat) : Nat :=
  min limit (total - limit * i)

/-- `serde_json` indexing `json["k"]`: the value bound to `k` when the
node is an object containing `k`, and `Null` otherwise. -/
def jIndex (j : Json) (k : String) : Json :=
  match j with
  | .obj fields => (Json.getVal fields k).getD .null
  | _ => .null

/-- `Value::as_bool`. -/
def Json.asBool : Json → Option Bool
  | .bool b => some b
  | _ => none

/-- `Value::as_u64` (on the integral model of JSON numbers). -/
def Json.asU64 : Json → Option Nat
  | .num n => if 0 ≤ n then some n.toNat else none
  | _ => none

/-- `Value::as_str`. -/
def Json.asStr : Json → Option String
  | .str s => some s
  | _ => none

/-- Outcome of one HTTP exchange as seen by the client code: either the
transport failed (`reqwest` error, already rendered to a string by
`map_err(|e| e.to_string())`), or a response arrived with a status code
and a body whose JSON parse result (`serde_json::from_str`, also
rendered to a string on failure) is given. -/
inductive HttpOutcome where
  | transportErr (e : String)
  | response (status : Nat) (parsed : Except String Json)

/-- `FetchDocument::get_metadata` (`src/fetch.rs` lines 69–108): error on
transport failure, on a status other than `200 OK`, or on a body that
fails to parse; otherwise read `json["props"]["partitioned"]` defaulting
to `false` and `json["doc_count"]` defaulting to `0`. -/
def get_metadata : HttpOutcome → Except String (Bool × Nat)
  | .transportErr e => .error e
  | .response status parsed =>
    if status ≠ 200 then
      .error ("Failed to fetch table metadata: Status code " ++ toString status)
    else
      match parsed with
      | .error e => .error e
      | .ok json =>
        .ok ((jIndex (jIndex json "props") "partitioned").asBool.getD false,
             (jIndex json "doc_count").asU64.getD 0)

/-- The error message `update_document` produces for a response status
other than 200 or 201. -/
def updateStatusMsg (id : String) (status : Nat) : String :=
  "Failed to update document " ++ id ++ ": Status code " ++ toString status

/-- `update_document` (`src/main.rs` lines 200–229): require the `_id`
and `_rev` fields, send the conditional `PUT` (its outcome is the `send`
argument: transport error or response status), and accept exactly the
statuses 200 and 201. -/
def update_document (doc : Json) (send : Except String Nat) : Except String Unit :=
  match (jIndex doc "_id").asStr with
  | none => .error "Document missing '_id' field"
  | some id =>
    match (jIndex doc "_rev").asStr with
    | none => .error "Document missing '_rev' field"
    | some _ =>
      match send with
      | .error e => .error e
      | .ok status =>
        if status ≠ 200 ∧ status ≠ 201 then
          .error (updateStatusMsg id status)
        else
          .ok ()

/-- The per-document console reports of `main`'s processing loop
(`src/main.rs` lines 287–315), plus the final completion marker. -/
inductive Event where
  | fieldRenamed (id : String)
  | updated (id : String)
  | updateFailed (id : String) (err : String)
  | dryRunWouldUpdate (id : String)
  | notFound (id : String)
  | completed
deriving DecidableEq

/-- Whether an event is the single per-document outcome report (the
`renamed` line that precedes an update attempt is progress logging, not
the outcome). -/
def Event.isOutcome : Event → Bool
  | .updated _ => true
  | .updateFailed _ _ => true
  | .dryRunWouldUpdate _ => true
  | .notFound _ => true
  | _ => false

/-- The body of `main`'s `for mut doc in documents` loop (`src/main.rs`
lines 287–313) for one document: compute the rename; when it succeeded
and dry-run is off, send the document to `update_document` (whose `PUT`
outcome for this document is `send doc'`), logging success or failure;
when dry-run is on, log the would-have-updated line; when the rename
found nothing, log the not-found line.  Returns the emitted events
together with the list of documents sent to the update operation. -/
def processDoc (dryRun : Bool) (oldPath : List String) (newField : String)
    (send : Json → Except String Nat) (doc : Json) : List Event × List Json :=
  let id := ((jIndex doc "_id").asStr).getD "<unknown>"
  let r := Json.rename_nested_field doc oldPath newField
  if r.2 then
    if !dryRun then
      match update_document r.1 (send r.1) with
      | .error e => ([.fieldRenamed id, .updateFailed id e], [r.1])
      | .ok _ => ([.fieldRenamed id, .updated id], [r.1])
    else
      ([.fieldRenamed id, .dryRunWouldUpdate id], [])
  else
    ([.notFound id], [])

/-- `main`'s whole processing loop over the fetched documents. -/
def processAll (dryRun : Bool) (oldPath : List String) (newField : String)
    (send : Json → Except String Nat) : List Json → List Event × List Json
  | [] => ([], [])
  | d :: ds =>
    let r := processDoc dryRun oldPath newField send d
    let rest := processAll dryRun oldPath newField send ds
    (r.1 ++ rest.1, r.2 ++ rest.2)

/-- The full event log of a run: the processing loop followed by the
final `Operation completed.` marker (`src/main.rs` line 315), which is
printed unconditionally after the loop. -/
def runEvents (dryRun : Bool) (oldPath : List String) (newField : String)
    (send : Json → Except String Nat) (docs : List Json) : List Event :=
  (processAll dryRun oldPath newField send docs).1 ++ [.completed]

/-- Start / finish markers of one `update_document` call. -/
inductive TraceEv where
  | beginUpdate (id : String)
  | endUpdate (id : String)
deriving DecidableEq

/-- The update-operation trace of `main`'s loop.  In the source the call
`update_document(..).await` is awaited inline inside the sequential
`for` loop (`src/main.rs` lines 297–299) — no task is spawned — so each
update begins and completes before the loop moves on; the trace records
exactly that order of begin/end marks. -/
def updateTrace (dryRun : Bool) (oldPath : List String) (newField : String) :
    List Json → List TraceEv
  | [] => []
  | d :: ds =>
    let id := ((jIndex d "_id").asStr).getD "<unknown>"
    let r := Json.rename_nested_field d oldPath newField
    (if r.2 && !dryRun then [.beginUpdate id, .endUpdate id] else [])
      ++ updateTrace dryRun oldPath newField ds

/-- A trace is fully serialized when every update's end follows its begin
immediately: no second update is dispatched while one is in flight, and
completions occur in dispatch order. -/
def serializedTrace : List TraceEv → Bool
  | [] => true
  | .beginUpdate i :: .endUpdate i' :: rest => decide (i = i') && serializedTrace rest
  | _ => false

/-! ## Supporting lemmas -/

/-- Structural induction on `Json` with membership hypotheses for the
nested lists. -/
theorem Json.ind (motive : Json → Prop)
    (hnull : motive .null) (hbool : ∀ b, motive (.bool b))
    (hnum : ∀ n, motive (.num n)) (hstr : ∀ s, motive (.str s))
    (harr : ∀ elems, (∀ e ∈ elems, motive e) → motive (.arr elems))
    (hobj : ∀ fields, (∀ kv ∈ fields, motive kv.2) → motive (.obj fields)) :
    ∀ j, motive j := by
  have key : ∀ (N : Nat) (j : Json), sizeOf j ≤ N → motive j := by
    intro N
    induction N with
    | zero => intro j hj; cases j <;> simp at hj
    | succ N ih =>
      intro j hj
      cases j with
      | null => exact hnull
      | bool b => exact hbool b
      | num n => exact hnum n
      | str s => exact hstr s
      | arr elems =>
        refine harr elems (fun e he => ih e ?_)
        have h1 := List.sizeOf_lt_of_mem he
        have h2 : sizeOf (Json.arr elems) = 1 + sizeOf elems := by simp
        omega
      | obj fields =>
        refine hobj fields (fun kv hkv => ih kv.2 ?_)
        have h1 := List.sizeOf_lt_of_mem hkv
        have h2 : sizeOf kv.2 ≤ sizeOf kv := by
          obtain ⟨k, v⟩ := kv
          simp
        have h3 : sizeOf (Json.obj fields) = 1 + sizeOf fields := by simp
        omega
  intro j
  exact key (sizeOf j) j le_rfl

/-- The array loop of the rename equals a map of the per-element results
paired with the disjunction of the per-element flags. -/
theorem Json.renameElems_eq (es : List Json) (p : List String) (nf : String) :
    Json.renameElems es p nf
      = (es.map (fun e => (Json.rename_nested_field e p nf).1),
         es.any (fun e => (Json.rename_nested_field e p nf).2)) := by
  induction es with
  | nil => simp [Json.renameElems]
  | cons e es ih => simp [Json.renameElems, ih]

/-- A pair drawn from the zip of a list with itself has equal
components. -/
theorem zip_same_eq {α : Type} : ∀ {l : List α} {a b : α}, (a, b) ∈ l.zip l → a = b := by
  intro l
  induction l with
  | nil => intro a b h; simp at h
  | cons c t ih =>
    intro a b h
    rw [List.zip_cons_cons] at h
    rcases List.mem_cons.mp h with h1 | h2
    · rw [Prod.mk.injEq] at h1
      exact h1.1.trans h1.2.symm
    · exact ih h2

/-- Two lists of equal length differ exactly when some aligned pair of
their elements differs. -/
theorem list_ne_iff_zip {α : Type} : ∀ {l1 l2 : List α}, l1.length = l2.length →
    (l1 ≠ l2 ↔ ∃ pr ∈ l1.zip l2, pr.1 ≠ pr.2) := by
  intro l1
  induction l1 with
  | nil =>
    intro l2 h
    cases l2 with
    | nil => simp
    | cons b t => simp at h
  | cons a t ih =>
    intro l2 h
    cases l2 with
    | nil => simp at h
    | cons b t2 =>
      simp only [List.length_cons, Nat.succ.injEq] at h
      by_cases hab : a = b
      · subst hab
        have := ih h
        simp [this]
      · simp [hab]

/-! ## C1 — array transparency of the rename -/

/-- C1: at an array node `rename_nested_field` applies the same,
unmodified path to every element (the map visits every element, with no
short-circuit) and returns the disjunction of the per-element results;
and on `{"a":{"b":[{"c":1},{"c":2},{"d":3}]}}` with old path `a.b.c` and
new field `a.b.new_c` (leaf `new_c`) it returns the renamed document
with the third element untouched, together with `true`. -/
theorem claim1_array_transparency :
    (∀ (elems : List Json) (p : List String) (nf : String), p ≠ [] →
      Json.rename_nested_field (.arr elems) p nf
        = (.arr (elems.map (fun e => (Json.rename_nested_field e p nf).1)),
           elems.any (fun e => (Json.rename_nested_field e p nf).2)))
    ∧ Json.rename_nested_field
        (.obj [("a", .obj [("b", .arr [.obj [("c", .num 1)], .obj [("c", .num 2)],
          .obj [("d", .num 3)]])])])
        ["a", "b", "c"] "a.b.new_c"
      = (.obj [("a", .obj [("b", .arr [.obj [("new_c", .num 1)], .obj [("new_c", .num 2)],
          .obj [("d", .num 3)]])])], true) := by
  constructor
  · intro elems p nf hp
    cases p with
    | nil => exact absurd rfl hp
    | cons k rest =>
      simp [Json.rename_nested_field, Json.renameElems_eq]
  · simp [Json.rename_nested_field, Json.renameElems, Json.getVal, Json.setVal,
      Json.removeKey, Json.insertSorted, lastSeg, splitDots, splitDotsCh]

/-- Witness for C1: the universal array clause applied to a concrete
two-element array with path `["c"]`. -/
theorem claim1_array_transparency_witness :
    Json.rename_nested_field (.arr [.obj [("c", .num 1)], .obj [("d", .num 2)]]) ["c"] "new_c"
      = (.arr ([Json.obj [("c", .num 1)], .obj [("d", .num 2)]].map
          (fun e => (Json.rename_nested_field e ["c"] "new_c").1)),
         [Json.obj [("c", .num 1)], .obj [("d", .num 2)]].any
          (fun e => (Json.rename_nested_field e ["c"] "new_c").2)) :=
  claim1_array_transparency.1 [.obj [("c", .num 1)], .obj [("d", .num 2)]] ["c"] "new_c"
    (by simp)

/-! ## C4 — path-shape validation -/

/-- C4: validation fails exactly when the two dotted strings split into
different numbers of segments, or when some aligned pair of the
all-but-last segments differs (exact, order- and case-sensitive string
comparison); it rejects `a.b.c` vs `x.y`, rejects `a.b.c` vs `a.x.c`,
and accepts `a.b.c` vs `a.b.d`. -/
theorem claim4_path_validation :
    (∀ oldF newF : String,
      exceptOk (validate_field_paths oldF newF) = false
        ↔ ((splitDots oldF).length ≠ (splitDots newF).length
            ∨ ∃ pr ∈ (splitDots oldF).dropLast.zip ((splitDots newF).dropLast),
                pr.1 ≠ pr.2))
    ∧ exceptOk (validate_field_paths "a.b.c" "x.y") = false
    ∧ exceptOk (validate_field_paths "a.b.c" "a.x.c") = false
    ∧ exceptOk (validate_field_paths "a.b.c" "a.b.d") = true := by
  refine ⟨?_, by decide, by decide, by decide⟩
  intro oldF newF
  by_cases hlen : (splitDots oldF).length = (splitDots newF).length
  · have hdl : (splitDots oldF).dropLast.length = (splitDots newF).dropLast.length := by
      simp [List.length_dropLast, hlen]
    by_cases hpar : (splitDots oldF).dropLast = (splitDots newF).dropLast
    · simp [validate_field_paths, hlen, hpar, exceptOk]
      intro a b hmem
      exact zip_same_eq hmem
    · simp [validate_field_paths, hlen, hpar, exceptOk]
      obtain ⟨⟨a, b⟩, hm, hne⟩ := (list_ne_iff_zip hdl).mp hpar
      exact ⟨a, b, hm, hne⟩
  · simp [validate_field_paths, hlen, exceptOk]

/-- Witness for C4: the characterization applied to the concrete
parent-mismatch pair. -/
theorem claim4_path_validation_witness :
    exceptOk (validate_field_paths "a.b.c" "a.x.c") = false :=
  (claim4_path_validation.1 "a.b.c" "a.x.c").mpr (by decide)

/-! ## C2 — pagination termination -/

/-- Splitting the first element off an index-shifted map over a range. -/
theorem range_map_succ (g : Nat → Nat) (n i : Nat) :
    (List.range (n + 1)).map (fun m => g (i + m))
      = g i :: (List.range n).map (fun m => g (i + 1 + m)) := by
  rw [List.range_succ_eq_map]
  simp only [List.map_cons, List.map_map, Nat.add_zero]
  congr 1
  apply List.map_congr_left
  intro m _
  simp only [Function.comp_apply]
  congr 1
  omega

/-- If request `i + n` is the first short batch at or after request `i`,
the loop from `i` issues exactly the `n + 1` requests `i, ..., i + n`
and returns their batch sizes. -/
theorem execLoop_stops (store : Nat → Nat) (limit : Nat) :
    ∀ (n i fuel : Nat), store (i + n) < limit → (∀ m, m < n → limit ≤ store (i + m)) →
      n < fuel →
      execLoop store limit fuel i = some ((List.range (n + 1)).map (fun m => store (i + m))) := by
  intro n
  induction n with
  | zero =>
    intro i fuel hshort _ hfuel
    match fuel, hfuel with
    | fuel + 1, _ =>
      simp only [execLoop]
      rw [if_pos (by simpa using hshort)]
      rw [show List.range 1 = [0] from rfl]
      simp
  | succ n ih =>
    intro i fuel hshort hge hfuel
    match fuel, hfuel with
    | fuel + 1, _ =>
      have h0 : limit ≤ store i := by simpa using hge 0 (by omega)
      simp only [execLoop]
      rw [if_neg (by omega)]
      have hsh : store ((i + 1) + n) < limit := by
        have he : (i + 1) + n = i + (n + 1) := by omega
        rw [he]; exact hshort
      have hg : ∀ m, m < n → limit ≤ store ((i + 1) + m) := by
        intro m hm
        have he : (i + 1) + m = i + (m + 1) := by omega
        rw [he]; exact hge (m + 1) (by omega)
      rw [ih (i + 1) fuel hsh hg (by omega)]
      conv_rhs => rw [range_map_succ store (n + 1) i]

/-- If no request ever returns a short batch, the loop never stops. -/
theorem execLoop_diverges (store : Nat → Nat) (limit : Nat)
    (h : ∀ i, limit ≤ store i) : ∀ fuel i, execLoop store limit fuel i = none := by
  intro fuel
  induction fuel with
  | zero => intro i; simp [execLoop]
  | succ fuel ih =>
    intro i
    simp only [execLoop]
    rw [if_neg (by have := h i; omega)]
    rw [ih (i + 1)]

/-- C2: `FetchDocument::execute` stops exactly when a batch strictly
smaller than the page size is returned, after processing that batch:
when request `k` is the first short batch the loop issues exactly the
requests `0..k` and returns after processing batch `k`; when every batch
reaches the page size the loop never stops; and a mock store of exactly
2500 documents with page size 1000 yields exactly 3 requests with
batches 1000, 1000, 500. -/
theorem claim2_pagination_termination :
    (∀ (store : Nat → Nat) (limit k : Nat), store k < limit →
       (∀ j, j < k → limit ≤ store j) → ∀ fuel, k < fuel →
         executeFetch store limit fuel = some ((List.range (k + 1)).map store))
    ∧ (∀ (store : Nat → Nat) (limit : Nat), (∀ i, limit ≤ store i) →
        ∀ fuel, executeFetch store limit fuel = none)
    ∧ executeFetch (mockStore 2500 1000) 1000 10 = some [1000, 1000, 500] := by
  refine ⟨?_, ?_, by decide⟩
  · intro store limit k hshort hge fuel hfuel
    have := execLoop_stops store limit k 0 fuel (by simpa using hshort)
      (fun m hm => by simpa using hge m hm) hfuel
    rw [executeFetch, this]
    congr 1
    apply List.map_congr_left
    intro m _
    simp
  · intro store limit h fuel
    exact execLoop_diverges store limit h fuel 0

/-- Witness for C2: the first clause applied to the mock store (first
short batch at request 2), and the divergence clause applied to a store
that always returns full pages. -/
theorem claim2_pagination_termination_witness :
    executeFetch (mockStore 2500 1000) 1000 5
        = some ((List.range 3).map (mockStore 2500 1000))
      ∧ executeFetch (fun _ => 7) 7 9 = none :=
  ⟨claim2_pagination_termination.1 (mockStore 2500 1000) 1000 2 (by decide)
      (by decide) 5 (by decide),
   claim2_pagination_termination.2.1 (fun _ => 7) 7 (fun _ => le_refl 7) 9⟩

/-! ## Association-list lemmas for the BTreeMap model -/

namespace Json

/-- Looking up a key none of the entries carry yields nothing. -/
theorem getVal_eq_none : ∀ {l : List (String × Json)} {k : String},
    (∀ b ∈ l, b.1 ≠ k) → getVal l k = none := by
  intro l
  induction l with
  | nil => intro k _; simp [getVal]
  | cons hd t ih =>
    intro k hall
    obtain ⟨k', v'⟩ := hd
    have hk : k' ≠ k := hall (k', v') (by simp)
    simp [getVal, hk]
    exact ih (fun b hb => hall b (by simp [hb]))

/-- A successful lookup exhibits a member binding. -/
theorem getVal_mem : ∀ {l : List (String × Json)} {k : String} {v : Json},
    getVal l k = some v → (k, v) ∈ l := by
  intro l
  induction l with
  | nil => intro k v h; simp [getVal] at h
  | cons hd t ih =>
    intro k v h
    obtain ⟨k', v'⟩ := hd
    by_cases hk : k' = k
    · simp [getVal, hk] at h
      subst hk
      subst h
      simp
    · simp [getVal, hk] at h
      exact List.mem_cons_of_mem _ (ih h)

/-- The freshly inserted binding is found by a lookup of its key. -/
theorem getVal_insertSorted_self (k : String) (v : Json) :
    ∀ l : List (String × Json), getVal (insertSorted k v l) k = some v := by
  intro l
  induction l with
  | nil => simp [insertSorted, getVal]
  | cons hd t ih =>
    obtain ⟨k', v'⟩ := hd
    by_cases hlt : k < k'
    · simp [insertSorted, hlt, getVal]
    · by_cases heq : k = k'
      · simp [insertSorted, hlt, heq, getVal]
      · have hne : k' ≠ k := fun h => heq h.symm
        simp [insertSorted, hlt, heq, getVal, hne, ih]

/-- Inserting one key does not disturb lookups of another. -/
theorem getVal_insertSorted_ne (k k' : String) (v : Json) (hne : k' ≠ k) :
    ∀ l : List (String × Json), getVal (insertSorted k v l) k' = getVal l k' := by
  have hne' : ¬k = k' := fun h => hne h.symm
  intro l
  induction l with
  | nil => simp [insertSorted, getVal, hne']
  | cons hd t ih =>
    obtain ⟨k0, v0⟩ := hd
    simp only [insertSorted]
    by_cases hlt : k < k0
    · rw [if_pos hlt]
      simp [getVal, hne']
    · rw [if_neg hlt]
      by_cases heq : k = k0
      · rw [if_pos heq]
        subst heq
        simp [getVal, hne']
      · rw [if_neg heq]
        simp [getVal, ih]

/-- Removing a key then looking up another key is the original lookup. -/
theorem getVal_removeKey_ne (k k' : String) (hne : k' ≠ k) :
    ∀ l : List (String × Json), getVal (removeKey l k) k' = getVal l k' := by
  intro l
  induction l with
  | nil => simp [removeKey]
  | cons hd t ih =>
    obtain ⟨k0, v0⟩ := hd
    simp only [removeKey]
    by_cases h0 : k0 = k
    · rw [if_pos h0]
      subst h0
      have hk : ¬k0 = k' := fun h => hne h.symm
      simp [getVal, hk]
    · rw [if_neg h0]
      simp [getVal, ih]

/-- On a duplicate-free list (head key strictly below all tail keys at
every node), removing a key makes its lookup fail. -/
theorem getVal_removeKey_self {l : List (String × Json)} {k : String}
    (hs : keysSorted l = true) : getVal (removeKey l k) k = none := by
  induction l with
  | nil => simp [removeKey, getVal]
  | cons hd t ih =>
    obtain ⟨k0, v0⟩ := hd
    simp only [keysSorted, Bool.and_eq_true, List.all_eq_true, decide_eq_true_eq] at hs
    obtain ⟨hall, hrest⟩ := hs
    by_cases h0 : k0 = k
    · subst h0
      simp only [removeKey, if_pos rfl]
      apply getVal_eq_none
      intro b hb
      have := hall b hb
      exact fun he => absurd (he ▸ this) (lt_irrefl k0)
    · simp [removeKey, h0, getVal, ih hrest]

/-- Writing through a reference obtained by a successful lookup makes the
written value the lookup result. -/
theorem getVal_setVal_self : ∀ {l : List (String × Json)} {k : String} {v w : Json},
    getVal l k = some v → getVal (setVal l k w) k = some w := by
  intro l
  induction l with
  | nil => intro k v w h; simp [getVal] at h
  | cons hd t ih =>
    intro k v w h
    obtain ⟨k0, v0⟩ := hd
    by_cases h0 : k0 = k
    · simp [getVal, h0] at h
      simp [setVal, h0, getVal]
    · simp [getVal, h0] at h
      simp [setVal, h0, getVal, ih h]

/-- Writing the same value twice through the same key is one write. -/
theorem setVal_setVal (k : String) (w : Json) :
    ∀ l : List (String × Json), setVal (setVal l k w) k w = setVal l k w := by
  intro l
  induction l with
  | nil => simp [setVal]
  | cons hd t ih =>
    obtain ⟨k0, v0⟩ := hd
    by_cases h0 : k0 = k
    · simp [setVal, h0]
    · simp [setVal, h0, ih]

/-- Writing back the value a lookup returned changes nothing. -/
theorem setVal_self : ∀ {l : List (String × Json)} {k : String} {v : Json},
    getVal l k = some v → setVal l k v = l := by
  intro l
  induction l with
  | nil => intro k v h; simp [getVal] at h
  | cons hd t ih =>
    intro k v h
    obtain ⟨k0, v0⟩ := hd
    by_cases h0 : k0 = k
    · simp [getVal, h0] at h
      simp [setVal, h0, h]
    · simp [getVal, h0] at h
      simp [setVal, h0, ih h]

/-- Members of an insertion are the new binding or old members. -/
theorem mem_insertSorted : ∀ {l : List (String × Json)} {k : String} {v : Json}
    {b : String × Json}, b ∈ insertSorted k v l → b = (k, v) ∨ b ∈ l := by
  intro l
  induction l with
  | nil => intro k v b hb; simp [insertSorted] at hb; exact Or.inl hb
  | cons hd t ih =>
    intro k v b hb
    obtain ⟨k0, v0⟩ := hd
    simp only [insertSorted] at hb
    by_cases hlt : k < k0
    · rw [if_pos hlt] at hb
      rcases List.mem_cons.mp hb with h | h
      · exact Or.inl h
      · exact Or.inr h
    · rw [if_neg hlt] at hb
      by_cases heq : k = k0
      · rw [if_pos heq] at hb
        rcases List.mem_cons.mp hb with h | h
        · exact Or.inl h
        · exact Or.inr (List.mem_cons_of_mem _ h)
      · rw [if_neg heq] at hb
        rcases List.mem_cons.mp hb with h | h
        · exact Or.inr (by simp [h])
        · rcases ih h with h' | h'
          · exact Or.inl h'
          · exact Or.inr (List.mem_cons_of_mem _ h')

/-- Members of a removal are members of the original list. -/
theorem mem_removeKey : ∀ {l : List (String × Json)} {k : String}
    {b : String × Json}, b ∈ removeKey l k → b ∈ l := by
  intro l
  induction l with
  | nil => intro k b hb; simp [removeKey] at hb
  | cons hd t ih =>
    intro k b hb
    obtain ⟨k0, v0⟩ := hd
    simp only [removeKey] at hb
    by_cases h0 : k0 = k
    · rw [if_pos h0] at hb
      exact List.mem_cons_of_mem _ hb
    · rw [if_neg h0] at hb
      rcases List.mem_cons.mp hb with h | h
      · exact h ▸ List.mem_cons_self _ _
      · exact List.mem_cons_of_mem _ (ih h)

/-- A member of an overwrite carries a key already present. -/
theorem mem_setVal_key : ∀ {l : List (String × Json)} {k : String} {w : Json}
    {b : String × Json}, b ∈ setVal l k w → ∃ c ∈ l, b.1 = c.1 := by
  intro l
  induction l with
  | nil => intro k w b hb; simp [setVal] at hb
  | cons hd t ih =>
    intro k w b hb
    obtain ⟨k0, v0⟩ := hd
    simp only [setVal] at hb
    by_cases h0 : k0 = k
    · rw [if_pos h0] at hb
      rcases List.mem_cons.mp hb with h | h
      · exact ⟨(k0, v0), by simp, by simp [h]⟩
      · exact ⟨b, by simp [h], rfl⟩
    · rw [if_neg h0] at hb
      rcases List.mem_cons.mp hb with h | h
      · exact ⟨(k0, v0), by simp, by simp [h]⟩
      · obtain ⟨c, hc, he⟩ := ih h
        exact ⟨c, by simp [hc], he⟩

/-- Insertion preserves the sorted-keys invariant. -/
theorem keysSorted_insertSorted (k : String) (v : Json) :
    ∀ {l : List (String × Json)}, keysSorted l = true →
      keysSorted (insertSorted k v l) = true := by
  intro l
  induction l with
  | nil => intro _; simp [insertSorted, keysSorted]
  | cons hd t ih =>
    intro hs
    obtain ⟨k0, v0⟩ := hd
    simp only [keysSorted, Bool.and_eq_true, List.all_eq_true, decide_eq_true_eq] at hs
    obtain ⟨hall, hrest⟩ := hs
    simp only [insertSorted]
    by_cases hlt : k < k0
    · rw [if_pos hlt]
      simp only [keysSorted, Bool.and_eq_true, List.all_eq_true, decide_eq_true_eq]
      refine ⟨?_, ?_, hrest⟩
      · intro b hb
        rcases List.mem_cons.mp hb with h | h
        · simp [h, hlt]
        · exact lt_trans hlt (hall b h)
      · exact hall
    · rw [if_neg hlt]
      by_cases heq : k = k0
      · rw [if_pos heq]
        subst heq
        simp only [keysSorted, Bool.and_eq_true, List.all_eq_true, decide_eq_true_eq]
        exact ⟨hall, hrest⟩
      · rw [if_neg heq]
        simp only [keysSorted, Bool.and_eq_true, List.all_eq_true, decide_eq_true_eq]
        have hgt : k0 < k := by
          rcases lt_trichotomy k k0 with h | h | h
          · exact absurd h hlt
          · exact absurd h heq
          · exact h
        refine ⟨?_, ih hrest⟩
        intro b hb
        rcases mem_insertSorted hb with h | h
        · simp [h, hgt]
        · exact hall b h
    
/-- Removal preserves the sorted-keys invariant. -/
theorem keysSorted_removeKey (k : String) :
    ∀ {l : List (String × Json)}, keysSorted l = true →
      keysSorted (removeKey l k) = true := by
  intro l
  induction l with
  | nil => intro _; simp [removeKey, keysSorted]
  | cons hd t ih =>
    intro hs
    obtain ⟨k0, v0⟩ := hd
    simp only [keysSorted, Bool.and_eq_true, List.all_eq_true, decide_eq_true_eq] at hs
    obtain ⟨hall, hrest⟩ := hs
    simp only [removeKey]
    by_cases h0 : k0 = k
    · rw [if_pos h0]
      exact hrest
    · rw [if_neg h0]
      simp only [keysSorted, Bool.and_eq_true, List.all_eq_true, decide_eq_true_eq]
      exact ⟨fun b hb => hall b (mem_removeKey hb), ih hrest⟩

/-- Overwriting a value preserves the sorted-keys invariant. -/
theorem keysSorted_setVal (k : String) (w : Json) :
    ∀ {l : List (String × Json)}, keysSorted l = true →
      keysSorted (setVal l k w) = true := by
  intro l
  induction l with
  | nil => intro _; simp [setVal, keysSorted]
  | cons hd t ih =>
    intro hs
    obtain ⟨k0, v0⟩ := hd
    simp only [keysSorted, Bool.and_eq_true, List.all_eq_true, decide_eq_true_eq] at hs
    obtain ⟨hall, hrest⟩ := hs
    simp only [setVal]
    by_cases h0 : k0 = k
    · rw [if_pos h0]
      simp only [keysSorted, Bool.and_eq_true, List.all_eq_true, decide_eq_true_eq]
      exact ⟨hall, hrest⟩
    · rw [if_neg h0]
      simp only [keysSorted, Bool.and_eq_true, List.all_eq_true, decide_eq_true_eq]
      refine ⟨?_, ih hrest⟩
      intro b hb
      obtain ⟨c, hc, he⟩ := mem_setVal_key hb
      rw [he]
      exact hall c hc

/-- Unfolding lemma: well-formedness of a cons of fields. -/
theorem wfF_cons {k : String} {v : Json} {t : List (String × Json)} :
    wfF ((k, v) :: t) = (wfJ v && wfF t) := by
  simp [wfF]

/-- A value found in a well-formed field list is well-formed. -/
theorem wfF_getVal : ∀ {l : List (String × Json)} {k : String} {v : Json},
    wfF l = true → getVal l k = some v → wfJ v = true := by
  intro l
  induction l with
  | nil => intro k v _ h; simp [getVal] at h
  | cons hd t ih =>
    intro k v hw h
    obtain ⟨k0, v0⟩ := hd
    rw [wfF_cons, Bool.and_eq_true] at hw
    by_cases h0 : k0 = k
    · simp [getVal, h0] at h
      exact h ▸ hw.1
    · simp [getVal, h0] at h
      exact ih hw.2 h

/-- Insertion of a well-formed value preserves field well-formedness. -/
theorem wfF_insertSorted {k : String} {v : Json} (hv : wfJ v = true) :
    ∀ {l : List (String × Json)}, wfF l = true → wfF (insertSorted k v l) = true := by
  intro l
  induction l with
  | nil => intro _; simp [insertSorted, wfF, wfJ, hv]
  | cons hd t ih =>
    intro hw
    obtain ⟨k0, v0⟩ := hd
    rw [wfF_cons, Bool.and_eq_true] at hw
    simp only [insertSorted]
    by_cases hlt : k < k0
    · rw [if_pos hlt, wfF_cons, wfF_cons]
      simp [hv, hw.1, hw.2]
    · rw [if_neg hlt]
      by_cases heq : k = k0
      · rw [if_pos heq, wfF_cons]
        simp [hv, hw.2]
      · rw [if_neg heq, wfF_cons]
        simp [hw.1, ih hw.2]

/-- Removal preserves field well-formedness. -/
theorem wfF_removeKey {k : String} :
    ∀ {l : List (String × Json)}, wfF l = true → wfF (removeKey l k) = true := by
  intro l
  induction l with
  | nil => intro _; simp [removeKey, wfF]
  | cons hd t ih =>
    intro hw
    obtain ⟨k0, v0⟩ := hd
    rw [wfF_cons, Bool.and_eq_true] at hw
    simp only [removeKey]
    by_cases h0 : k0 = k
    · rw [if_pos h0]
      exact hw.2
    · rw [if_neg h0, wfF_cons]
      simp [hw.1, ih hw.2]

/-- Overwriting with a well-formed value preserves field
well-formedness. -/
theorem wfF_setVal {k : String} {w : Json} (hw' : wfJ w = true) :
    ∀ {l : List (String × Json)}, wfF l = true → wfF (setVal l k w) = true := by
  intro l
  induction l with
  | nil => intro _; simp [setVal, wfF]
  | cons hd t ih =>
    intro hw
    obtain ⟨k0, v0⟩ := hd
    rw [wfF_cons, Bool.and_eq_true] at hw
    simp only [setVal]
    by_cases h0 : k0 = k
    · rw [if_pos h0, wfF_cons]
      simp [hw', hw.2]
    · rw [if_neg h0, wfF_cons]
      simp [hw.1, ih hw.2]

/-- Inserting a key below every key of the list prepends it. -/
theorem insertSorted_head_lt {k : String} {v : Json} :
    ∀ {l : List (String × Json)}, (∀ b ∈ l, k < b.1) →
      insertSorted k v l = (k, v) :: l := by
  intro l
  induction l with
  | nil => intro _; simp [insertSorted]
  | cons hd t _ =>
    intro hall
    obtain ⟨k0, v0⟩ := hd
    have hlt : k < k0 := hall (k0, v0) (by simp)
    simp only [insertSorted]
    rw [if_pos hlt]

/-- Removing a key of a sorted list and re-inserting the value it was
bound to restores the list. -/
theorem insertSorted_removeKey_self : ∀ {l : List (String × Json)} {k : String} {v : Json},
    keysSorted l = true → getVal l k = some v →
      insertSorted k v (removeKey l k) = l := by
  intro l
  induction l with
  | nil => intro k v _ h; simp [getVal] at h
  | cons hd t ih =>
    intro k v hs h
    obtain ⟨k0, v0⟩ := hd
    simp only [keysSorted, Bool.and_eq_true, List.all_eq_true, decide_eq_true_eq] at hs
    obtain ⟨hall, hrest⟩ := hs
    by_cases h0 : k0 = k
    · subst h0
      simp [getVal] at h
      subst h
      simp only [removeKey, if_true]
      exact insertSorted_head_lt hall
    · simp only [getVal, if_neg h0] at h
      simp only [removeKey, if_neg h0]
      have hmem : (k, v) ∈ t := getVal_mem h
      have hgt : k0 < k := hall (k, v) hmem
      simp only [insertSorted]
      rw [if_neg (by exact fun hc => absurd (lt_trans hc hgt) (lt_irrefl k)),
        if_neg (by exact fun hc => absurd (hc ▸ hgt) (lt_irrefl k))]
      rw [ih hrest h]

/-- Equation: the empty path is rejected before any traversal. -/
theorem rename_nil (j : Json) (nf : String) : rename_nested_field j [] nf = (j, false) := by
  simp [rename_nested_field]

/-- Equation: an object without the current key is left alone. -/
theorem rename_obj_none {fields : List (String × Json)} {k : String} {rest : List String}
    {nf : String} (hget : getVal fields k = none) :
    rename_nested_field (.obj fields) (k :: rest) nf = (.obj fields, false) := by
  simp only [rename_nested_field]
  split
  · rfl
  next v hg =>
    rw [hget] at hg
    cases hg

/-- Equation: the base case removes the matched key and inserts the new
leaf. -/
theorem rename_obj_last {fields : List (String × Json)} {k : String} {nf : String} {v : Json}
    (hget : getVal fields k = some v) :
    rename_nested_field (.obj fields) [k] nf
      = (.obj (insertSorted (lastSeg nf) v (removeKey fields k)), true) := by
  simp only [rename_nested_field]
  split
  next hg =>
    rw [hget] at hg
    cases hg
  next v' hg =>
    rw [hget] at hg
    injection hg with hv
    subst hv
    simp

/-- Equation: the recursive case descends into the matched value. -/
theorem rename_obj_deeper {fields : List (String × Json)} {k : String} {rest : List String}
    {nf : String} {v : Json} (hget : getVal fields k = some v) (hne : rest ≠ []) :
    rename_nested_field (.obj fields) (k :: rest) nf
      = (.obj (setVal fields k (rename_nested_field v rest nf).1),
         (rename_nested_field v rest nf).2) := by
  simp only [rename_nested_field]
  split
  next hg =>
    rw [hget] at hg
    cases hg
  next v' hg =>
    rw [hget] at hg
    injection hg with hv
    subst hv
    simp [hne]

/-- Equation: an array maps the loop over its elements. -/
theorem rename_arr {es : List Json} {k : String} {rest : List String} {nf : String} :
    rename_nested_field (.arr es) (k :: rest) nf
      = (.arr ((renameElems es (k :: rest) nf).1), (renameElems es (k :: rest) nf).2) := by
  simp [rename_nested_field]

/-- Equations for the scalar cases of the rename. -/
theorem rename_scalar {p : List String} {nf : String} :
    (∀ (b : Bool), rename_nested_field (.bool b) p nf = (.bool b, false))
    ∧ (∀ (n : Int), rename_nested_field (.num n) p nf = (.num n, false))
    ∧ (∀ (s : String), rename_nested_field (.str s) p nf = (.str s, false))
    ∧ rename_nested_field .null p nf = (.null, false) := by
  cases p with
  | nil => exact ⟨fun b => rename_nil _ _, fun n => rename_nil _ _,
      fun s => rename_nil _ _, rename_nil _ _⟩
  | cons k rest =>
    refine ⟨fun b => ?_, fun n => ?_, fun s => ?_, ?_⟩ <;>
      simp [rename_nested_field]

/-- Unfolding: well-formedness of an object node. -/
theorem wfJ_obj {fields : List (String × Json)} :
    wfJ (.obj fields) = (keysSorted fields && wfF fields) := by
  simp [wfJ]

/-- Unfolding: well-formedness of an array node. -/
theorem wfJ_arr {es : List Json} : wfJ (.arr es) = wfL es := by
  simp [wfJ]

/-- An array is well-formed exactly when every element is. -/
theorem wfL_eq_all : ∀ {es : List Json},
    wfL es = true ↔ ∀ e ∈ es, wfJ e = true := by
  intro es
  induction es with
  | nil => simp [wfL]
  | cons e t ih =>
    simp only [wfL, Bool.and_eq_true, ih]
    constructor
    · rintro ⟨h1, h2⟩ x hx
      rcases List.mem_cons.mp hx with h | h
      · exact h ▸ h1
      · exact h2 x h
    · intro h
      exact ⟨h e (by simp), fun x hx => h x (by simp [hx])⟩

end Json

/-! ## C3 — idempotence of the rename -/

/-- C3: for every (BTreeMap-represented) document, old path and new
field whose leaf differs from every key consumed along the old path,
running `rename_nested_field` a second time with the same arguments
returns `false` and leaves the document of the first run unchanged. -/
theorem claim3_idempotence :
    ∀ (j : Json) (p : List String) (nf : String),
      Json.wfJ j = true → (∀ k ∈ p, lastSeg nf ≠ k) →
        Json.rename_nested_field (Json.rename_nested_field j p nf).1 p nf
          = ((Json.rename_nested_field j p nf).1, false) := by
  intro j
  induction j using Json.ind with
  | hnull =>
    intro p nf _ _
    cases p with
    | nil => simp [Json.rename_nil]
    | cons k rest => simp [Json.rename_nested_field]
  | hbool b =>
    intro p nf _ _
    cases p with
    | nil => simp [Json.rename_nil]
    | cons k rest => simp [Json.rename_nested_field]
  | hnum n =>
    intro p nf _ _
    cases p with
    | nil => simp [Json.rename_nil]
    | cons k rest => simp [Json.rename_nested_field]
  | hstr s =>
    intro p nf _ _
    cases p with
    | nil => simp [Json.rename_nil]
    | cons k rest => simp [Json.rename_nested_field]
  | harr es ihs =>
    intro p nf hwf hcond
    cases p with
    | nil => simp [Json.rename_nil]
    | cons k rest =>
      rw [Json.wfJ_arr] at hwf
      have hallwf : ∀ e ∈ es, Json.wfJ e = true := Json.wfL_eq_all.mp hwf
      have hallidem : ∀ e ∈ es,
          Json.rename_nested_field
              (Json.rename_nested_field e (k :: rest) nf).1 (k :: rest) nf
            = ((Json.rename_nested_field e (k :: rest) nf).1, false) :=
        fun e he => ihs e he (k :: rest) nf (hallwf e he) hcond
      have key : ∀ (l : List Json),
          (∀ e ∈ l,
            Json.rename_nested_field
                (Json.rename_nested_field e (k :: rest) nf).1 (k :: rest) nf
              = ((Json.rename_nested_field e (k :: rest) nf).1, false)) →
          Json.renameElems ((Json.renameElems l (k :: rest) nf).1) (k :: rest) nf
            = ((Json.renameElems l (k :: rest) nf).1, false) := by
        intro l
        induction l with
        | nil => intro _; simp [Json.renameElems]
        | cons e t iht =>
          intro hall
          have he := hall e (List.mem_cons_self e t)
          have ht := iht (fun x hx => hall x (List.mem_cons_of_mem e hx))
          simp only [Json.renameElems, he, ht]
          simp
      rw [Json.rename_arr, Json.rename_arr, key es hallidem]
  | hobj fields ihs =>
    intro p nf hwf hcond
    cases p with
    | nil => simp [Json.rename_nil]
    | cons k rest =>
      rw [Json.wfJ_obj, Bool.and_eq_true] at hwf
      obtain ⟨hs, hf⟩ := hwf
      cases hget : Json.getVal fields k with
      | none =>
        rw [Json.rename_obj_none hget, Json.rename_obj_none hget]
      | some v =>
        cases rest with
        | nil =>
          rw [Json.rename_obj_last hget]
          have hn : lastSeg nf ≠ k := hcond k (by simp)
          have h2 : Json.getVal
              (Json.insertSorted (lastSeg nf) v (Json.removeKey fields k)) k = none := by
            rw [Json.getVal_insertSorted_ne (lastSeg nf) k v (fun h => hn h.symm)]
            exact Json.getVal_removeKey_self hs
          rw [Json.rename_obj_none h2]
        | cons k2 rest2 =>
          have hrestne : (k2 :: rest2) ≠ ([] : List String) := by simp
          rw [Json.rename_obj_deeper hget hrestne]
          have hwv : Json.wfJ v = true := Json.wfF_getVal hf hget
          have hcond' : ∀ x ∈ (k2 :: rest2), lastSeg nf ≠ x :=
            fun x hx => hcond x (by simp [hx])
          have hidem := ihs (k, v) (Json.getVal_mem hget) (k2 :: rest2) nf hwv hcond'
          have hget2 : Json.getVal
              (Json.setVal fields k (Json.rename_nested_field v (k2 :: rest2) nf).1) k
              = some (Json.rename_nested_field v (k2 :: rest2) nf).1 :=
            Json.getVal_setVal_self hget
          rw [Json.rename_obj_deeper hget2 hrestne, hidem]
          rw [Json.setVal_setVal]

/-- Witness for C3: the idempotence theorem applied to
`{"a":{"b":1}}` with path `a.b` and new leaf `new_b`. -/
theorem claim3_idempotence_witness :
    Json.rename_nested_field
        (Json.rename_nested_field (.obj [("a", .obj [("b", .num 1)])]) ["a", "b"] "new_b").1
        ["a", "b"] "new_b"
      = ((Json.rename_nested_field (.obj [("a", .obj [("b", .num 1)])]) ["a", "b"] "new_b").1,
         false) :=
  claim3_idempotence (.obj [("a", .obj [("b", .num 1)])]) ["a", "b"] "new_b"
    (by simp [Json.wfJ, Json.wfF, Json.wfL, Json.keysSorted]) (by decide)

/-! ## C10 — rename to the same leaf name -/

/-- C10: when the final segment of the new field equals the final
segment of the old path, a matching rename removes and re-inserts the
same key, so the resulting document equals the original; in particular
on `{"a":1}` with path `["a"]` and new field `"a"` the function returns
`true` with the document unchanged, and a second application returns
`true` again — the second-call-returns-false idempotence fails here. -/
theorem claim10_same_leaf_noop :
    (∀ (j : Json) (p : List String) (nf : String),
        Json.wfJ j = true → p.getLast? = some (lastSeg nf) →
          (Json.rename_nested_field j p nf).1 = j)
    ∧ Json.rename_nested_field (.obj [("a", .num 1)]) ["a"] "a"
        = (.obj [("a", .num 1)], true)
    ∧ Json.rename_nested_field
          (Json.rename_nested_field (.obj [("a", .num 1)]) ["a"] "a").1 ["a"] "a"
        = (.obj [("a", .num 1)], true) := by
  refine ⟨?_, ?_, ?_⟩
  · intro j
    induction j using Json.ind with
    | hnull =>
      intro p nf _ _
      cases p with
      | nil => simp [Json.rename_nil]
      | cons k rest => simp [Json.rename_nested_field]
    | hbool b =>
      intro p nf _ _
      cases p with
      | nil => simp [Json.rename_nil]
      | cons k rest => simp [Json.rename_nested_field]
    | hnum n =>
      intro p nf _ _
      cases p with
      | nil => simp [Json.rename_nil]
      | cons k rest => simp [Json.rename_nested_field]
    | hstr s =>
      intro p nf _ _
      cases p with
      | nil => simp [Json.rename_nil]
      | cons k rest => simp [Json.rename_nested_field]
    | harr es ihs =>
      intro p nf hwf hlast
      cases p with
      | nil => simp [Json.rename_nil]
      | cons k rest =>
        rw [Json.wfJ_arr] at hwf
        have hallwf : ∀ e ∈ es, Json.wfJ e = true := Json.wfL_eq_all.mp hwf
        rw [Json.rename_arr]
        have hfst : (Json.renameElems es (k :: rest) nf).1 = es := by
          rw [Json.renameElems_eq]
          calc (es.map (fun e => (Json.rename_nested_field e (k :: rest) nf).1), 
                es.any (fun e => (Json.rename_nested_field e (k :: rest) nf).2)).1 
              = es.map (fun e => (Json.rename_nested_field e (k :: rest) nf).1) := rfl
            _ = es.map id :=
                List.map_congr_left (fun e he => ihs e he (k :: rest) nf (hallwf e he) hlast)
            _ = es := List.map_id es
        rw [hfst]
    | hobj fields ihs =>
      intro p nf hwf hlast
      cases p with
      | nil => simp [Json.rename_nil]
      | cons k rest =>
        rw [Json.wfJ_obj, Bool.and_eq_true] at hwf
        obtain ⟨hs, hf⟩ := hwf
        cases hget : Json.getVal fields k with
        | none => rw [Json.rename_obj_none hget]
        | some v =>
          cases rest with
          | nil =>
            rw [Json.rename_obj_last hget]
            have hk : lastSeg nf = k := by
              simp at hlast
              exact hlast.symm
            rw [hk]
            have := Json.insertSorted_removeKey_self hs hget
            rw [this]
          | cons k2 rest2 =>
            have hrestne : (k2 :: rest2) ≠ ([] : List String) := by simp
            rw [Json.rename_obj_deeper hget hrestne]
            have hlast' : (k2 :: rest2).getLast? = some (lastSeg nf) := by
              rw [← List.getLast?_cons_cons]
              exact hlast
            have hwv : Json.wfJ v = true := Json.wfF_getVal hf hget
            have hval := ihs (k, v) (Json.getVal_mem hget) (k2 :: rest2) nf hwv hlast'
            rw [hval]
            rw [Json.setVal_self hget]
  · simp [Json.rename_nested_field, Json.getVal, Json.removeKey, Json.insertSorted,
      lastSeg, splitDots, splitDotsCh]
  · simp [Json.rename_nested_field, Json.getVal, Json.removeKey, Json.insertSorted,
      lastSeg, splitDots, splitDotsCh]

/-- Witness for C10: the universal clause applied to `{"a":1}` with path
`["a"]` and new field `"a"`. -/
theorem claim10_same_leaf_noop_witness :
    (Json.rename_nested_field (.obj [("a", .num 1)]) ["a"] "a").1 = .obj [("a", .num 1)] :=
  claim10_same_leaf_noop.1 (.obj [("a", .num 1)]) ["a"] "a"
    (by simp [Json.wfJ, Json.wfF, Json.keysSorted]) (by decide)

/-! ## C5 — write gating by rename result and dry-run -/

/-- C5: a document is sent to the update operation exactly when its
rename returned `true` and dry-run is off; in dry-run mode the whole run
issues zero update calls; and a document whose rename returned `false`
is reported as field-not-found and is never sent to the update
operation. -/
theorem claim5_write_gating :
    (∀ (dryRun : Bool) (oldPath : List String) (newField : String)
        (send : Json → Except String Nat) (doc : Json),
        (processDoc dryRun oldPath newField send doc).2
          = (if (Json.rename_nested_field doc oldPath newField).2 = true ∧ dryRun = false
             then [(Json.rename_nested_field doc oldPath newField).1] else []))
    ∧ (∀ (oldPath : List String) (newField : String) (send : Json → Except String Nat)
        (docs : List Json), (processAll true oldPath newField send docs).2 = [])
    ∧ (∀ (dryRun : Bool) (oldPath : List String) (newField : String)
        (send : Json → Except String Nat) (doc : Json),
        (Json.rename_nested_field doc oldPath newField).2 = false →
          processDoc dryRun oldPath newField send doc
            = ([.notFound (((jIndex doc "_id").asStr).getD "<unknown>")], [])) := by
  have hgate : ∀ (dryRun : Bool) (oldPath : List String) (newField : String)
      (send : Json → Except String Nat) (doc : Json),
      (processDoc dryRun oldPath newField send doc).2
        = (if (Json.rename_nested_field doc oldPath newField).2 = true ∧ dryRun = false
           then [(Json.rename_nested_field doc oldPath newField).1] else []) := by
    intro dryRun oldPath newField send doc
    by_cases hr : (Json.rename_nested_field doc oldPath newField).2 = true
    · cases dryRun with
      | false =>
        cases hu : update_document (Json.rename_nested_field doc oldPath newField).1
            (send (Json.rename_nested_field doc oldPath newField).1) with
        | error e => simp [processDoc, hr, hu]
        | ok u => simp [processDoc, hr, hu]
      | true => simp [processDoc, hr]
    · simp [processDoc, hr]
  refine ⟨hgate, ?_, ?_⟩
  · intro oldPath newField send docs
    induction docs with
    | nil => simp [processAll]
    | cons d ds ih =>
      simp only [processAll, List.append_eq_nil]
      refine ⟨?_, ih⟩
      rw [hgate]
      simp
  · intro dryRun oldPath newField send doc hr
    simp [processDoc, hr]

/-- Witness for C5: the not-found clause applied to a document without
the old field. -/
theorem claim5_write_gating_witness :
    processDoc false ["a"] "b" (fun _ => .ok 200) (.obj [("_id", .str "7")])
      = ([.notFound "7"], []) :=
  claim5_write_gating.2.2 false ["a"] "b" (fun _ => .ok 200) (.obj [("_id", .str "7")])
    (by simp [Json.rename_nested_field, Json.getVal])

/-! ## C7 — per-document failure isolation and completion marker -/

/-- C7: every run ends with the completion marker no matter how many
updates fail; every fetched document contributes exactly one outcome
report, whatever the update results of the other documents are; and in a
concrete two-document run where the first document's update hits a
stale-revision conflict, the second document is still updated and the
run completes. -/
theorem claim7_failure_isolation :
    (∀ (dryRun : Bool) (oldPath : List String) (newField : String)
        (send : Json → Except String Nat) (docs : List Json),
        (runEvents dryRun oldPath newField send docs).getLast? = some .completed)
    ∧ (∀ (dryRun : Bool) (oldPath : List String) (newField : String)
        (send : Json → Except String Nat) (docs : List Json),
        ((processAll dryRun oldPath newField send docs).1.filter Event.isOutcome).length
          = docs.length)
    ∧ runEvents false ["a"] "b"
        (fun d => if (jIndex d "_id").asStr = some "1" then .ok 409 else .ok 201)
        [.obj [("_id", .str "1"), ("_rev", .str "r1"), ("a", .num 1)],
         .obj [("_id", .str "2"), ("_rev", .str "r2"), ("a", .num 2)]]
      = [.fieldRenamed "1", .updateFailed "1" (updateStatusMsg "1" 409),
         .fieldRenamed "2", .updated "2", .completed] := by
  refine ⟨?_, ?_, ?_⟩
  · intro dryRun oldPath newField send docs
    rw [runEvents, List.getLast?_concat]
  · intro dryRun oldPath newField send docs
    have hone : ∀ doc : Json,
        ((processDoc dryRun oldPath newField send doc).1.filter Event.isOutcome).length = 1 := by
      intro doc
      by_cases hr : (Json.rename_nested_field doc oldPath newField).2 = true
      · cases dryRun with
        | false =>
          cases hu : update_document (Json.rename_nested_field doc oldPath newField).1
              (send (Json.rename_nested_field doc oldPath newField).1) with
          | error e => simp [processDoc, hr, hu, Event.isOutcome]
          | ok u => simp [processDoc, hr, hu, Event.isOutcome]
        | true => simp [processDoc, hr, Event.isOutcome]
      · simp [processDoc, hr, Event.isOutcome]
    induction docs with
    | nil => simp [processAll]
    | cons d ds ih =>
      simp only [processAll, List.filter_append, List.length_append, ih, hone d,
        List.length_cons]
      omega
  · have h1 : ¬(['b'] : List Char) < ['_', 'i', 'd'] := by decide
    have h2 : ¬(['b'] : List Char) < ['_', 'r', 'e', 'v'] := by decide
    simp [runEvents, processAll, processDoc, update_document, jIndex, Json.asStr,
      Json.rename_nested_field, Json.getVal, Json.removeKey, Json.insertSorted,
      Json.setVal, lastSeg, splitDots, splitDotsCh, updateStatusMsg, h1, h2]

/-! ## C6 — update error handling -/

/-- C6 (counterexample): `update_document` has no distinct conflict
error.  There is no pair of distinct error values such that a 409
(revision-mismatch) response yields the first while every other
non-success status yields the second: the code produces a different
status-bearing message for each status (e.g. 500 and 502 already
differ), so the two-kind taxonomy claimed by the spec does not exist in
the code. -/
theorem claim6_counterexample :
    ¬ ∃ conflictErr rejectedErr : String, conflictErr ≠ rejectedErr
        ∧ update_document (.obj [("_id", .str "d"), ("_rev", .str "r")]) (.ok 409)
            = .error conflictErr
        ∧ (∀ s : Nat, s ≠ 200 → s ≠ 201 → s ≠ 409 →
            update_document (.obj [("_id", .str "d"), ("_rev", .str "r")]) (.ok s)
              = .error rejectedErr) := by
  rintro ⟨c, r, hne, h409, hall⟩
  have h500 := hall 500 (by decide) (by decide) (by decide)
  have h502 := hall 502 (by decide) (by decide) (by decide)
  have e500 : update_document (.obj [("_id", .str "d"), ("_rev", .str "r")]) (.ok 500)
      = .error (updateStatusMsg "d" 500) := by
    simp [update_document, jIndex, Json.getVal, Json.asStr]
  have e502 : update_document (.obj [("_id", .str "d"), ("_rev", .str "r")]) (.ok 502)
      = .error (updateStatusMsg "d" 502) := by
    simp [update_document, jIndex, Json.getVal, Json.asStr]
  rw [e500] at h500
  rw [e502] at h502
  injection h500 with hmsg500
  injection h502 with hmsg502
  have : updateStatusMsg "d" 500 = updateStatusMsg "d" 502 := by
    rw [hmsg500, hmsg502]
  exact absurd this (by decide)

/-- C6 (amended): on a document carrying `_id` and `_rev`,
`update_document` propagates a transport error unchanged, succeeds
exactly on statuses 200 and 201, and for every other status — including
the revision-mismatch status 409, which is not distinguished — fails
with the one generic status-bearing message. -/
theorem claim6_update_errors :
    ∀ (doc : Json) (id rev : String),
      (jIndex doc "_id").asStr = some id →
      (jIndex doc "_rev").asStr = some rev →
      (∀ e : String, update_document doc (.error e) = .error e)
      ∧ (∀ s : Nat, (s = 200 ∨ s = 201) → update_document doc (.ok s) = .ok ())
      ∧ (∀ s : Nat, s ≠ 200 → s ≠ 201 →
          update_document doc (.ok s) = .error (updateStatusMsg id s)) := by
  intro doc id rev hid hrev
  refine ⟨?_, ?_, ?_⟩
  · intro e
    simp [update_document, hid, hrev]
  · intro s hs
    rcases hs with h | h <;> subst h <;> simp [update_document, hid, hrev]
  · intro s h200 h201
    simp [update_document, hid, hrev, h200, h201]

/-- Witness for C6: the amended theorem applied to a concrete document,
a conflict status and a success status. -/
theorem claim6_update_errors_witness :
    update_document (.obj [("_id", .str "d"), ("_rev", .str "r")]) (.ok 409)
        = .error (updateStatusMsg "d" 409)
      ∧ update_document (.obj [("_id", .str "d"), ("_rev", .str "r")]) (.ok 201) = .ok () :=
  ⟨(claim6_update_errors (.obj [("_id", .str "d"), ("_rev", .str "r")]) "d" "r"
      (by decide) (by decide)).2.2 409 (by decide) (by decide),
   (claim6_update_errors (.obj [("_id", .str "d"), ("_rev", .str "r")]) "d" "r"
      (by decide) (by decide)).2.1 201 (Or.inr rfl)⟩

/-! ## C8 — metadata probe -/

/-- C8: the metadata probe fails exactly on a transport error, a status
other than `200 OK`, or an unparsable body; when the body parses, a
missing `props.partitioned` attribute defaults to `false` and a missing
`doc_count` attribute defaults to `0` instead of failing. -/
theorem claim8_metadata_probe :
    (∀ e : String, get_metadata (.transportErr e) = .error e)
    ∧ (∀ (s : Nat) (parsed : Except String Json),
        exceptOk (get_metadata (.response s parsed)) = true
          ↔ (s = 200 ∧ ∃ j, parsed = .ok j))
    ∧ (∀ (s : Nat) (parsed : Except String Json), s ≠ 200 →
        get_metadata (.response s parsed)
          = .error ("Failed to fetch table metadata: Status code " ++ toString s))
    ∧ (∀ e : String, get_metadata (.response 200 (.error e)) = .error e)
    ∧ (∀ j : Json, (jIndex (jIndex j "props") "partitioned").asBool = none →
        get_metadata (.response 200 (.ok j))
          = .ok (false, (jIndex j "doc_count").asU64.getD 0))
    ∧ (∀ j : Json, (jIndex j "doc_count").asU64 = none →
        get_metadata (.response 200 (.ok j))
          = .ok ((jIndex (jIndex j "props") "partitioned").asBool.getD false, 0)) := by
  refine ⟨fun e => rfl, ?_, ?_, ?_, ?_, ?_⟩
  · intro s parsed
    by_cases hs : s = 200
    · subst hs
      cases parsed with
      | error e => simp [get_metadata, exceptOk]
      | ok j => simp [get_metadata, exceptOk]
    · cases parsed with
      | error e => simp [get_metadata, exceptOk, hs]
      | ok j => simp [get_metadata, exceptOk, hs]
  · intro s parsed hs
    simp [get_metadata, hs]
  · intro e
    simp [get_metadata]
  · intro j hpart
    simp [get_metadata, hpart]
  · intro j hcount
    simp [get_metadata, hcount]

/-- Witness for C8: a parsed body with neither attribute (`null`)
produces the defaults, via the theorem's default clauses. -/
theorem claim8_metadata_probe_witness :
    get_metadata (.response 200 (.ok .null))
      = .ok (false, (jIndex .null "doc_count").asU64.getD 0) :=
  claim8_metadata_probe.2.2.2.2.1 .null (by decide)

/-! ## C9 — update dispatch is sequential, not concurrent -/

/-- C9 (counterexample): in a concrete two-document run both documents
are renamed and updated, and the trace of the awaited update calls is
fully serialized — the first document's update completes before the
second document's update begins, so updates cannot interleave or
complete out of order. -/
theorem claim9_counterexample :
    updateTrace false ["a"] "b"
        [.obj [("_id", .str "1"), ("a", .num 1)], .obj [("_id", .str "2"), ("a", .num 2)]]
      = [.beginUpdate "1", .endUpdate "1", .beginUpdate "2", .endUpdate "2"]
    ∧ serializedTrace
        (updateTrace false ["a"] "b"
          [.obj [("_id", .str "1"), ("a", .num 1)], .obj [("_id", .str "2"), ("a", .num 2)]])
      = true := by
  have h1 : ¬(['b'] : List Char) < ['_', 'i', 'd'] := by decide
  constructor
  · simp [updateTrace, jIndex, Json.asStr, Json.rename_nested_field, Json.getVal,
      Json.removeKey, Json.insertSorted, lastSeg, splitDots, splitDotsCh, h1]
  · simp [updateTrace, serializedTrace, jIndex, Json.asStr, Json.rename_nested_field,
      Json.getVal, Json.removeKey, Json.insertSorted, lastSeg, splitDots, splitDotsCh, h1]

/-- C9 (amended): `main` awaits each `update_document` call inline in
its sequential loop and spawns no tasks, so for every run the update
trace is fully serialized: each update completes before the next one is
dispatched, in fetch order. -/
theorem claim9_sequential_updates :
    ∀ (dryRun : Bool) (oldPath : List String) (newField : String) (docs : List Json),
      serializedTrace (updateTrace dryRun oldPath newField docs) = true := by
  intro dryRun oldPath newField docs
  induction docs with
  | nil => simp [updateTrace, serializedTrace]
  | cons d ds ih =>
    simp only [updateTrace]
    by_cases hc : ((Json.rename_nested_field d oldPath newField).2 && !dryRun) = true
    · simp [hc, serializedTrace, ih]
    · simp [hc, ih]
